import Mathlib

/-!
Verification of the Mawrid search route core logic: the result-snippet
extraction heuristic in the POST handler and the autocomplete suggestion
generator with its bounded cache, both from src/app/api/search/route.ts.
Strings are modelled as Lean strings (lists of characters); the JavaScript
string operations used by the code (toLowerCase, trim, split, substring,
includes, startsWith) are embedded below. The module-level Map used as the
suggestion cache is modelled as an insertion-ordered association list.
-/

namespace Mawrid

/-- Whitespace test used by the trim embedding (ASCII whitespace). -/
def isWs (c : Char) : Bool := c == ' ' || c == '\t' || c == '\n' || c == '\r'

/-- Embedding of JavaScript toLowerCase: lowercases every character. -/
def lowerStr (s : String) : String := String.mk (s.data.map Char.toLower)

/-- Embedding of JavaScript trim: drops whitespace from both ends. -/
def jsTrim (s : String) : String :=
  String.mk (((s.data.dropWhile isWs).reverse.dropWhile isWs).reverse)

/-- Embedding of JavaScript substring(a, b) for a less or equal b: the
characters from index a (inclusive) to b (exclusive), clamped to the end. -/
def jsSubstring (s : String) (a b : Nat) : String :=
  String.mk ((s.data.drop a).take (b - a))

/-- Embedding of one-argument JavaScript substring(a): from index a to the end. -/
def jsSubstringFrom (s : String) (a : Nat) : String := String.mk (s.data.drop a)

/-- Does the second list start with the first list as an initial segment. -/
def startsWithL : List Char → List Char → Bool
  | [], _ => true
  | _ :: _, [] => false
  | a :: as, b :: bs => a == b && startsWithL as bs

/-- Embedding of JavaScript String.includes: substring search over the
haystack, scanning left to right. -/
def includesL : List Char → List Char → Bool
  | [], needle => needle.isEmpty
  | c :: rest, needle => startsWithL needle (c :: rest) || includesL rest needle

/-- Embedding of JavaScript s.startsWith(p). -/
def jsStartsWith (s p : String) : Bool := startsWithL p.data s.data

/-- Embedding of JavaScript s.includes(sub). -/
def jsIncludes (s sub : String) : Bool := includesL s.data sub.data

/-- Worker for the split embedding, accumulating the current segment
in reverse. -/
def splitSpAux : List Char → List Char → List String
  | [], cur => [String.mk cur.reverse]
  | c :: rest, cur =>
      if c == ' ' then String.mk cur.reverse :: splitSpAux rest []
      else splitSpAux rest (c :: cur)

/-- Embedding of JavaScript split with a single-space separator: empty
segments between consecutive spaces are kept, as in JavaScript. -/
def jsSplitSpace (s : String) : List String := splitSpAux s.data []

/-- The ellipsis marker appended around windowed snippets, as a character
list. -/
def dotsL : List Char := ['.', '.', '.']

/-- The query tokens used by the snippet heuristic: the lowercased query is
split on spaces and only words longer than two characters are kept
(route.ts line 51). -/
def queryTokens (query : String) : List String :=
  (jsSplitSpace (lowerStr query)).filter (fun w => w.length > 2)

/-- The match count the loop body assigns to the window starting at index i:
the 200-character chunk is lowercased and each entry of the token list adds
one when it occurs inside the chunk (route.ts lines 56 to 59). Duplicated
tokens in the list are counted every time they appear. -/
def windowScore (content : String) (qws : List String) (i : Nat) : Nat :=
  let chunk := lowerStr (jsSubstring content i (i + 200))
  qws.foldl (fun count w => count + (if jsIncludes chunk w then 1 else 0)) 0

/-- The window start positions the for loop scans: multiples of 50 strictly
below the content length minus 100 (route.ts line 55). -/
def positions (n : Nat) : List Nat :=
  (List.range ((n - 100 + 49) / 50)).map (fun k => 50 * k)

/-- The bestMatch and bestIndex accumulation of the for loop: the running
pair is replaced exactly when the current window score is strictly greater
(route.ts lines 60 to 63). -/
def scanLoop (content : String) (qws : List String) :
    List Nat → Nat × Nat → Nat × Nat
  | [], acc => acc
  | i :: rest, acc =>
      if acc.1 < windowScore content qws i then
        scanLoop content qws rest (windowScore content qws i, i)
      else scanLoop content qws rest acc

/-- The final bestIndex of the window scan, starting from bestMatch zero and
bestIndex zero. -/
def bestIndexOf (content query : String) : Nat :=
  (scanLoop content (queryTokens query) (positions content.length) (0, 0)).2

/-- The windowed part of the snippet: substring from max(0, bestIndex - 50)
to bestIndex + 200 (route.ts line 66); natural-number subtraction models the
clamp to zero. -/
def snippetCore (content query : String) : String :=
  jsSubstring content (bestIndexOf content query - 50) (bestIndexOf content query + 200)

/-- The snippet construction of the POST handler (route.ts lines 49 to 71):
content longer than 300 characters is windowed around the best-scoring
chunk with ellipsis markers, shorter content is passed through
substring(0, 300). -/
def extractSnippet (content query : String) : String :=
  if 300 < content.length then
    let bi := bestIndexOf content query
    let s1 := snippetCore content query
    let s2 := if 0 < bi then "..." ++ s1 else s1
    if bi + 200 < content.length then s2 ++ "..." else s2
  else jsSubstring content 0 300

/-- First-occurrence deduplication, the behaviour of spreading a JavaScript
Set built from an array (route.ts line 311). -/
def jsSetDedup (l : List String) : List String :=
  l.foldl (fun acc s => if acc.contains s then acc else acc ++ [s]) []

/-- Number of distinct query tokens occurring in the lowercased window.
This definition follows the claim wording (distinct tokens), to be compared
with windowScore, which is the count the code computes. -/
def distinctWindowScore (content : String) (qws : List String) (i : Nat) : Nat :=
  let chunk := lowerStr (jsSubstring content i (i + 200))
  ((jsSetDedup qws).filter (fun w => jsIncludes chunk w)).length

/-- Normalized query used as the cache key: toLowerCase then trim
(route.ts line 174). -/
def normQuery (q : String) : String := jsTrim (lowerStr q)

/-- The nonempty words of the normalized query (route.ts line 182). -/
def wordsOf (query : String) : List String :=
  (jsSplitSpace (normQuery query)).filter (fun w => w.length > 0)

/-- Concatenation of a list of lists, in order. -/
def concatAll {α : Type} : List (List α) → List α
  | [] => []
  | l :: ls => l ++ concatAll ls

/-- The single-word completion templates (route.ts lines 188 to 194). -/
def singleCompletions (w : String) : List String :=
  [w ++ " tutorial", w ++ " guide", w ++ " examples", w ++ " definition",
   w ++ " meaning", w ++ " benefits", w ++ " alternatives", w ++ " comparison",
   "how to " ++ w, "what is " ++ w, "best " ++ w, w ++ " for beginners",
   w ++ " tips", w ++ " tricks", w ++ " review", w ++ " vs",
   "learn " ++ w, "master " ++ w, "understand " ++ w, w ++ " explained"]

/-- The multi-word variation templates over the joined words
(route.ts lines 199 to 206). -/
def multiVariations (b : String) : List String :=
  [b ++ " tutorial", b ++ " guide", b ++ " examples",
   b ++ " benefits", b ++ " alternatives", b ++ " comparison",
   b ++ " review", b ++ " tips", b ++ " tricks",
   "best " ++ b, "how to " ++ b, "what is " ++ b,
   b ++ " for beginners", b ++ " explained", b ++ " vs",
   "learn " ++ b, "master " ++ b, "understand " ++ b]

/-- The partial-word completions: for each proper initial run of the words,
three templates over the joined run (route.ts lines 210 to 213). -/
def partCompletions (ws : List String) : List String :=
  concatAll ((List.range' 1 (ws.length - 1)).map (fun i =>
    let part := String.intercalate " " (ws.take i)
    [part ++ " tutorial", part ++ " guide", part ++ " examples"]))

/-- Section one of the candidate pool: single-word completions for one word,
variations plus partial completions for several (route.ts lines 185 to 214). -/
def sec1 (words : List String) : List String :=
  match words with
  | [] => []
  | [w] => singleCompletions w
  | ws => multiVariations (String.intercalate " " ws) ++ partCompletions ws

/-- The fixed table of question starters (route.ts lines 217 to 223). -/
def questionPatterns : List String :=
  ["what is", "how to", "why is", "when is", "where is", "who is",
   "what are", "how are", "why are", "when are", "where are", "who are",
   "what does", "how does", "why does", "when does", "where does", "who does",
   "what can", "how can", "why can", "when can", "where can", "who can",
   "how much", "how many", "how long", "how often", "how far", "how fast"]

/-- The candidates a single question starter contributes (route.ts lines
225 to 242): with a nonempty remainder, five completions of the remainder;
with an empty remainder, the three closers; when the starter occurs nowhere
in the query, the starter prepended to the original query. -/
def qpItem (lowerQuery query p : String) : List String :=
  if jsStartsWith lowerQuery p then
    let rem := jsTrim (jsSubstringFrom lowerQuery p.length)
    if rem.length == 0 then [p ++ " this", p ++ " that", p ++ " it"]
    else [p ++ " " ++ rem ++ " explained", p ++ " " ++ rem ++ " examples",
          p ++ " " ++ rem ++ " benefits", p ++ " " ++ rem ++ " work",
          p ++ " " ++ rem ++ " help"]
  else if jsIncludes lowerQuery p then [] else [p ++ " " ++ query]

/-- The fixed modifier table (route.ts lines 245 to 251). -/
def modifiers : List String :=
  ["best", "top", "latest", "new", "free", "cheap", "expensive",
   "easy", "hard", "simple", "complex", "quick", "fast", "slow",
   "good", "bad", "great", "awesome", "amazing", "terrible", "worst",
   "popular", "trending", "viral", "famous", "unknown", "hidden", "secret",
   "professional", "beginner", "advanced", "expert", "complete", "comprehensive"]

/-- The fixed action table (route.ts lines 260 to 266). -/
def actions : List String :=
  ["learn", "study", "practice", "master", "understand", "explain",
   "build", "create", "make", "develop", "design", "program",
   "buy", "sell", "rent", "hire", "find", "search", "discover",
   "compare", "review", "rate", "recommend", "suggest", "advise",
   "download", "install", "setup", "configure", "optimize", "improve"]

/-- A modifier or action word not occurring in the query contributes that
word prepended to the original query (route.ts lines 253 to 257 and
268 to 272). -/
def modItem (lowerQuery query m : String) : List String :=
  if jsIncludes lowerQuery m then [] else [m ++ " " ++ query]

/-- The context-aware fixed suggestions keyed on trigger substrings of the
normalized query (route.ts lines 275 to 292). -/
def ctxSection (lowerQuery : String) : List String :=
  (if jsIncludes lowerQuery "ai" || jsIncludes lowerQuery "artificial" ||
      jsIncludes lowerQuery "machine" then
    ["artificial intelligence applications", "ai ethics",
     "machine learning basics", "ai tools 2024"] else []) ++
  (if jsIncludes lowerQuery "programming" || jsIncludes lowerQuery "code" ||
      jsIncludes lowerQuery "developer" then
    ["programming languages", "coding bootcamp", "software development",
     "web development"] else []) ++
  (if jsIncludes lowerQuery "business" || jsIncludes lowerQuery "marketing" ||
      jsIncludes lowerQuery "startup" then
    ["business strategy", "digital marketing", "entrepreneurship",
     "business plan"] else []) ++
  (if jsIncludes lowerQuery "health" || jsIncludes lowerQuery "medical" ||
      jsIncludes lowerQuery "wellness" then
    ["health research", "medical treatment", "wellness tips",
     "mental health"] else []) ++
  (if jsIncludes lowerQuery "travel" || jsIncludes lowerQuery "trip" ||
      jsIncludes lowerQuery "vacation" then
    ["travel planning", "budget travel", "travel destinations",
     "travel tips"] else []) ++
  (if jsIncludes lowerQuery "finance" || jsIncludes lowerQuery "money" ||
      jsIncludes lowerQuery "investment" then
    ["personal finance", "investment strategies", "budget planning",
     "financial advice"] else [])

/-- The fixed extension table for the last word (route.ts lines 297 to 301). -/
def tailExtensions : List String :=
  ["tutorial", "guide", "examples", "benefits", "alternatives", "comparison",
   "review", "tips", "tricks", "explained", "basics", "advanced",
   "for beginners", "vs", "2024", "best practices", "common mistakes"]

/-- The tail-extension candidates: only when the last word exists and is
longer than two characters, each extension not occurring in the query is
appended to the original query (route.ts lines 295 to 308). -/
def tailSection (lowerQuery query : String) (words : List String) : List String :=
  match words.getLast? with
  | none => []
  | some lw =>
      if 2 < lw.length then
        concatAll (tailExtensions.map (fun e =>
          if jsIncludes lowerQuery e then [] else [query ++ " " ++ e]))
      else []

/-- The full candidate pool of the suggestion generator, in the order the
code pushes the sections (route.ts lines 181 to 308). -/
def buildCandidates (query : String) : List String :=
  sec1 (wordsOf query) ++
  concatAll (questionPatterns.map (qpItem (normQuery query) query)) ++
  concatAll (modifiers.map (modItem (normQuery query) query)) ++
  concatAll (actions.map (modItem (normQuery query) query)) ++
  ctxSection (normQuery query) ++
  tailSection (normQuery query) query (wordsOf query)

/-- The deduplicated candidate pool with candidates equal (lowercased) to
the normalized or the original query removed (route.ts lines 311 to 312). -/
def preSortList (query : String) : List String :=
  (jsSetDedup (buildCandidates query)).filter (fun s =>
    !(lowerStr s == normQuery query) && !(lowerStr s == query))

/-- The sort comparator (route.ts lines 313 to 322): candidates whose
lowercase form starts with the normalized query come first, then ascending
string length. -/
def cmpSug (lowerQuery a b : String) : Int :=
  let aExact := jsStartsWith (lowerStr a) lowerQuery
  let bExact := jsStartsWith (lowerStr b) lowerQuery
  if aExact && !bExact then -1
  else if !aExact && bExact then 1
  else (a.length : Int) - (b.length : Int)

/-- Stable insertion for the sort embedding: the new element is placed
before the first element it compares strictly below, hence after every
element with an equal key, as the stable Array.prototype.sort does. -/
def insertSug (lowerQuery a : String) : List String → List String
  | [] => [a]
  | b :: l =>
      if cmpSug lowerQuery a b < 0 then a :: b :: l
      else b :: insertSug lowerQuery a l

/-- Embedding of the stable sort with the comparator of route.ts line 313:
elements are inserted left to right, which yields the stable sorted order
required of Array.prototype.sort. -/
def sortSugs (lowerQuery : String) (l : List String) : List String :=
  l.foldl (fun acc a => insertSug lowerQuery a acc) []

/-- The full deduplicated, filtered and sorted suggestion list computed on
a cache miss (route.ts lines 311 to 322). -/
def uniqueSuggestionsFor (query : String) : List String :=
  sortSugs (normQuery query) (preSortList query)

/-- The rank the sort comparator gives a candidate: zero when its lowercase
form starts with the normalized query, one otherwise. -/
def rankOf (lowerQuery s : String) : Nat :=
  if jsStartsWith (lowerStr s) lowerQuery then 0 else 1

/-- Does a candidate have the given rank and string length; the sort key of
the comparator of route.ts lines 313 to 322. -/
def keyIs (lowerQuery : String) (rk n : Nat) (s : String) : Bool :=
  (rankOf lowerQuery s == rk) && (s.length == n)

/-- The suggestion cache: an insertion-ordered association list modelling
the module-level Map of route.ts line 171. -/
abbrev Cache := List (String × List String)

/-- Lookup of the first entry with the given key, as Map.get does. -/
def cacheFind (k : String) : Cache → Option (List String)
  | [] => none
  | e :: t => if e.1 == k then some e.2 else cacheFind k t

/-- The size-limiting step after an insertion (route.ts lines 327 to 333):
when the cache holds more than 1000 entries the first inserted key is
deleted, but only when that key is truthy, that is, not the empty string,
because the code guards the deletion with a truthiness test on the key. -/
def evictStep (c : Cache) : Cache :=
  if c.length > 1000 then
    match c with
    | [] => c
    | e :: t => if e.1 == "" then e :: t else t
  else c

/-- The suggestion generator (route.ts lines 173 to 336) as a state
transformer over the cache: a hit returns the first limit cached entries
and leaves the cache unchanged; a miss computes the list, appends the new
entry at the end, and applies the size-limiting step. -/
def generateUltraFastSuggestions (query : String) (limit : Nat) (cache : Cache) :
    List String × Cache :=
  match cacheFind (normQuery query) cache with
  | some cached => (cached.take limit, cache)
  | none =>
      ((uniqueSuggestionsFor query).take limit,
       evictStep (cache ++ [(normQuery query, uniqueSuggestionsFor query)]))

/-- Folding a sequence of suggestion calls over a starting cache. -/
def runFrom (c : Cache) (calls : List (String × Nat)) : Cache :=
  calls.foldl (fun cc x => (generateUltraFastSuggestions x.1 x.2 cc).2) c

/-- Running a sequence of suggestion calls from the empty initial cache. -/
def runCalls (calls : List (String × Nat)) : Cache := runFrom [] calls

/-- String append acts as list append on the underlying character data. -/
theorem string_data_append (a b : String) : (a ++ b).data = a.data ++ b.data := rfl

/-- String length is the length of the underlying character data. -/
theorem string_length_eq (s : String) : s.length = s.data.length := rfl

/-- The character data of the ellipsis marker. -/
theorem dots_data : ("..." : String).data = dotsL := rfl

/-- The data of a string built from a character list is that list. -/
theorem mk_data (l : List Char) : (String.mk l).data = l := rfl

/-- The windowed part of the snippet holds at most 250 characters: at most
50 characters of left context plus the 200-character window. -/
theorem snippetCore_length_le (content query : String) :
    (snippetCore content query).length ≤ 250 := by
  show ((content.data.drop (bestIndexOf content query - 50)).take
      (bestIndexOf content query + 200 - (bestIndexOf content query - 50))).length ≤ 250
  rw [List.length_take]
  exact le_trans (min_le_left _ _) (by omega)

/-- Structure of the windowed snippet: the leading marker appears exactly
when the winning window start is nonzero, the trailing marker exactly when
the window end lies before the content end. -/
theorem extract_eq_struct (content query : String) (h : 300 < content.length) :
    (extractSnippet content query).data =
      (if bestIndexOf content query ≠ 0 then dotsL else []) ++
      (snippetCore content query).data ++
      (if bestIndexOf content query + 200 < content.length then dotsL else []) := by
  unfold extractSnippet
  rw [if_pos h]
  show (if bestIndexOf content query + 200 < content.length then
      (if 0 < bestIndexOf content query then "..." ++ snippetCore content query
       else snippetCore content query) ++ "..."
    else
      (if 0 < bestIndexOf content query then "..." ++ snippetCore content query
       else snippetCore content query)).data =
    (if bestIndexOf content query ≠ 0 then dotsL else []) ++
      (snippetCore content query).data ++
      (if bestIndexOf content query + 200 < content.length then dotsL else [])
  by_cases h1 : 0 < bestIndexOf content query <;>
    by_cases h2 : bestIndexOf content query + 200 < content.length
  · rw [if_pos h2, if_pos h1, if_pos (show bestIndexOf content query ≠ 0 by omega),
      if_pos h2]
    simp [string_data_append, dots_data, dotsL]
  · rw [if_neg h2, if_pos h1, if_pos (show bestIndexOf content query ≠ 0 by omega),
      if_neg h2]
    simp [string_data_append, dots_data, dotsL]
  · rw [if_pos h2, if_neg h1, if_neg (show ¬ bestIndexOf content query ≠ 0 by omega),
      if_pos h2]
    simp [string_data_append, dots_data, dotsL]
  · rw [if_neg h2, if_neg h1, if_neg (show ¬ bestIndexOf content query ≠ 0 by omega),
      if_neg h2]
    simp

/-- The snippet never exceeds 306 characters, whatever the content length. -/
theorem extract_length_le (content query : String) :
    (extractSnippet content query).length ≤ 306 := by
  by_cases h : 300 < content.length
  · have hs := extract_eq_struct content query h
    have hc := snippetCore_length_le content query
    rw [string_length_eq] at hc ⊢
    rw [hs, List.length_append, List.length_append]
    have h3 : (if bestIndexOf content query ≠ 0 then dotsL else []).length ≤ 3 := by
      split <;> simp [dotsL]
    have h4 : (if bestIndexOf content query + 200 < content.length then dotsL
        else []).length ≤ 3 := by
      split <;> simp [dotsL]
    omega
  · unfold extractSnippet
    rw [if_neg h]
    show ((content.data.drop 0).take (300 - 0)).length ≤ 306
    rw [List.length_take]
    exact le_trans (min_le_left _ _) (by omega)

/-- Claim C2: for content longer than 300 characters the snippet has length
at most 306, and after peeling the optional leading and trailing ellipsis
markers the remaining part is a contiguous substring of the content. -/
theorem claim_c2_snippet_bounds (content query : String) (h : 300 < content.length) :
    (extractSnippet content query).length ≤ 306 ∧
    ∃ core l r : List Char,
      content.data = l ++ core ++ r ∧
      ((extractSnippet content query).data = core ∨
       (extractSnippet content query).data = dotsL ++ core ∨
       (extractSnippet content query).data = core ++ dotsL ∨
       (extractSnippet content query).data = dotsL ++ core ++ dotsL) := by
  refine ⟨extract_length_le content query, ?_⟩
  have hcore : (snippetCore content query).data =
      (content.data.drop (bestIndexOf content query - 50)).take
        (bestIndexOf content query + 200 - (bestIndexOf content query - 50)) := rfl
  refine ⟨(snippetCore content query).data,
    content.data.take (bestIndexOf content query - 50),
    (content.data.drop (bestIndexOf content query - 50)).drop
      (bestIndexOf content query + 200 - (bestIndexOf content query - 50)), ?_, ?_⟩
  · conv_lhs => rw [← List.take_append_drop (bestIndexOf content query - 50) content.data]
    rw [← List.take_append_drop
      (bestIndexOf content query + 200 - (bestIndexOf content query - 50))
      (content.data.drop (bestIndexOf content query - 50))]
    rw [hcore]
    simp [List.append_assoc]
  · rw [extract_eq_struct content query h]
    by_cases h1 : bestIndexOf content query ≠ 0 <;>
      by_cases h2 : bestIndexOf content query + 200 < content.length <;>
        simp [h1, h2]

/-- Witness for claim C2 at a concrete 301-character content. -/
theorem claim_c2_witness :
    300 < (String.mk (List.replicate 301 'a')).length ∧
    (extractSnippet (String.mk (List.replicate 301 'a')) "ab").length ≤ 306 :=
  ⟨by rw [string_length_eq, mk_data, List.length_replicate]; omega,
   (claim_c2_snippet_bounds (String.mk (List.replicate 301 'a')) "ab"
    (by rw [string_length_eq, mk_data, List.length_replicate]; omega)).1⟩

/-- Claim C3: content of length at most 300 is returned unchanged, with no
windowing performed. -/
theorem claim_c3_short_content (content query : String) (h : content.length ≤ 300) :
    extractSnippet content query = content := by
  unfold extractSnippet
  rw [if_neg (by omega)]
  show String.mk ((content.data.drop 0).take (300 - 0)) = content
  rw [List.drop_zero, Nat.sub_zero,
    List.take_of_length_le (by rw [← string_length_eq]; omega)]

/-- Witness for claim C3 at a concrete short content. -/
theorem claim_c3_witness :
    ("hi there" : String).length ≤ 300 ∧ extractSnippet "hi there" "query" = "hi there" :=
  ⟨by decide, claim_c3_short_content "hi there" "query" (by decide)⟩

/-- The running best match never decreases during the scan. -/
theorem scanLoop_fst_le (content : String) (qws : List String) (l : List Nat)
    (acc : Nat × Nat) : acc.1 ≤ (scanLoop content qws l acc).1 := by
  induction l generalizing acc with
  | nil => exact le_refl _
  | cons i rest ih =>
      show acc.1 ≤ (if acc.1 < windowScore content qws i then
        scanLoop content qws rest (windowScore content qws i, i)
        else scanLoop content qws rest acc).1
      by_cases hc : acc.1 < windowScore content qws i
      · rw [if_pos hc]
        exact le_trans hc.le (ih (windowScore content qws i, i))
      · rw [if_neg hc]
        exact ih acc

/-- Every scanned window score is bounded by the final best match. -/
theorem scanLoop_ge_all (content : String) (qws : List String) (l : List Nat) :
    ∀ acc : Nat × Nat, ∀ j ∈ l,
      windowScore content qws j ≤ (scanLoop content qws l acc).1 := by
  induction l with
  | nil => intro acc j hj; cases hj
  | cons i rest ih =>
      intro acc j hj
      show windowScore content qws j ≤ (if acc.1 < windowScore content qws i then
        scanLoop content qws rest (windowScore content qws i, i)
        else scanLoop content qws rest acc).1
      by_cases hc : acc.1 < windowScore content qws i
      · rw [if_pos hc]
        rcases List.mem_cons.mp hj with rfl | hj2
        · exact scanLoop_fst_le content qws rest (windowScore content qws j, j)
        · exact ih (windowScore content qws i, i) j hj2
      · rw [if_neg hc]
        rcases List.mem_cons.mp hj with rfl | hj2
        · exact le_trans (Nat.not_lt.mp hc)
            (scanLoop_fst_le content qws rest acc)
        · exact ih acc j hj2

/-- When the accumulator is consistent, the final best index achieves the
final best match. -/
theorem scanLoop_achieves (content : String) (qws : List String) (l : List Nat) :
    ∀ acc : Nat × Nat, windowScore content qws acc.2 = acc.1 →
      windowScore content qws (scanLoop content qws l acc).2 =
        (scanLoop content qws l acc).1 := by
  induction l with
  | nil => intro acc h; exact h
  | cons i rest ih =>
      intro acc h
      have hred : scanLoop content qws (i :: rest) acc =
          (if acc.1 < windowScore content qws i then
            scanLoop content qws rest (windowScore content qws i, i)
            else scanLoop content qws rest acc) := rfl
      by_cases hc : acc.1 < windowScore content qws i
      · rw [hred, if_pos hc]
        exact ih (windowScore content qws i, i) rfl
      · rw [hred, if_neg hc]
        exact ih acc h

/-- The scan either leaves the accumulator untouched or strictly improves
the best match at a scanned position. -/
theorem scanLoop_stay_or_grow (content : String) (qws : List String) (l : List Nat) :
    ∀ acc : Nat × Nat, scanLoop content qws l acc = acc ∨
      (acc.1 < (scanLoop content qws l acc).1 ∧ (scanLoop content qws l acc).2 ∈ l) := by
  induction l with
  | nil => intro acc; exact Or.inl rfl
  | cons i rest ih =>
      intro acc
      show scanLoop content qws (i :: rest) acc = acc ∨ _
      have hred : scanLoop content qws (i :: rest) acc =
          (if acc.1 < windowScore content qws i then
            scanLoop content qws rest (windowScore content qws i, i)
            else scanLoop content qws rest acc) := rfl
      by_cases hc : acc.1 < windowScore content qws i
      · rw [hred, if_pos hc]
        right
        rcases ih (windowScore content qws i, i) with heq | ⟨hlt, hmem⟩
        · rw [heq]
          exact ⟨hc, List.mem_cons_self i rest⟩
        · exact ⟨lt_trans hc hlt, List.mem_cons_of_mem i hmem⟩
      · rw [hred, if_neg hc]
        rcases ih acc with heq | ⟨hlt, hmem⟩
        · exact Or.inl heq
        · exact Or.inr ⟨hlt, List.mem_cons_of_mem i hmem⟩

/-- First-found-wins during the scan: a scanned position strictly before
the final best index scores strictly below the final best match, provided
the positions are increasing and lie beyond the current best index. -/
theorem scanLoop_strict (content : String) (qws : List String) (l : List Nat) :
    ∀ acc : Nat × Nat, l.Pairwise (· < ·) → (∀ j ∈ l, acc.2 < j) →
      windowScore content qws acc.2 = acc.1 →
      ∀ j ∈ l, j < (scanLoop content qws l acc).2 →
        windowScore content qws j < (scanLoop content qws l acc).1 := by
  induction l with
  | nil => intro acc _ _ _ j hj; cases hj
  | cons i rest ih =>
      intro acc hsort hlt hach j hj hjlt
      rcases List.pairwise_cons.mp hsort with ⟨hirest, hsort2⟩
      have hred : scanLoop content qws (i :: rest) acc =
          (if acc.1 < windowScore content qws i then
            scanLoop content qws rest (windowScore content qws i, i)
            else scanLoop content qws rest acc) := rfl
      by_cases hc : acc.1 < windowScore content qws i
      · rw [hred, if_pos hc] at hjlt ⊢
        rcases List.mem_cons.mp hj with rfl | hj2
        · rcases scanLoop_stay_or_grow content qws rest (windowScore content qws j, j)
            with heq | ⟨hg, _⟩
          · rw [heq] at hjlt
            exact absurd hjlt (lt_irrefl j)
          · exact hg
        · exact ih (windowScore content qws i, i) hsort2 hirest rfl j hj2 hjlt
      · rw [hred, if_neg hc] at hjlt ⊢
        rcases List.mem_cons.mp hj with rfl | hj2
        · rcases scanLoop_stay_or_grow content qws rest acc with heq | ⟨hg, _⟩
          · rw [heq] at hjlt
            exact absurd hjlt (Nat.lt_asymm (hlt j (List.mem_cons_self j rest)))
          · exact lt_of_le_of_lt (Nat.not_lt.mp hc) hg
        · exact ih acc hsort2 (fun y hy => hlt y (List.mem_cons_of_mem i hy)) hach j hj2 hjlt

/-- With an empty token list every window scores zero and the accumulator
never moves off its initial value. -/
theorem scanLoop_empty_tokens (content : String) (l : List Nat) :
    scanLoop content [] l (0, 0) = (0, 0) := by
  induction l with
  | nil => rfl
  | cons i rest ih =>
      show (if (0 : Nat) < windowScore content [] i then
        scanLoop content [] rest (windowScore content [] i, i)
        else scanLoop content [] rest (0, 0)) = (0, 0)
      have hws : windowScore content [] i = 0 := rfl
      rw [hws, if_neg (lt_irrefl 0)]
      exact ih

/-- For content longer than 300 characters the scanned position list starts
at zero. -/
theorem positions_cons (n : Nat) (h : 300 < n) :
    positions n = 0 :: (List.range ((n - 100 + 49) / 50 - 1)).map (fun k => 50 * (k + 1)) := by
  unfold positions
  rw [show (n - 100 + 49) / 50 = ((n - 100 + 49) / 50 - 1) + 1 by omega,
    List.range_succ_eq_map]
  simp [List.map_map, Function.comp]

/-- The scanned positions are strictly increasing. -/
theorem positions_sorted (n : Nat) : (positions n).Pairwise (· < ·) := by
  unfold positions
  refine List.Pairwise.map _ (fun a b hab => ?_) (List.pairwise_lt_range _)
  omega

/-- Main property of the window scan started at position zero: the final
best index is a scanned position, its score dominates every scanned
position, and every scanned position strictly before it scores strictly
below it. -/
theorem scan_main (content : String) (qws : List String) (t : List Nat)
    (hsorted : t.Pairwise (· < ·)) (ht0 : ∀ j ∈ t, 0 < j) :
    (scanLoop content qws (0 :: t) (0, 0)).2 ∈ 0 :: t ∧
    (∀ j ∈ 0 :: t, windowScore content qws j ≤
      windowScore content qws (scanLoop content qws (0 :: t) (0, 0)).2) ∧
    (∀ j ∈ 0 :: t, j < (scanLoop content qws (0 :: t) (0, 0)).2 →
      windowScore content qws j <
        windowScore content qws (scanLoop content qws (0 :: t) (0, 0)).2) := by
  have hred : scanLoop content qws (0 :: t) (0, 0) =
      (if (0 : Nat) < windowScore content qws 0 then
        scanLoop content qws t (windowScore content qws 0, 0)
        else scanLoop content qws t (0, 0)) := rfl
  by_cases hc : (0 : Nat) < windowScore content qws 0
  · rw [hred, if_pos hc]
    have hach : windowScore content qws
        (scanLoop content qws t (windowScore content qws 0, 0)).2 =
        (scanLoop content qws t (windowScore content qws 0, 0)).1 :=
      scanLoop_achieves content qws t _ rfl
    refine ⟨?_, ?_, ?_⟩
    · rcases scanLoop_stay_or_grow content qws t (windowScore content qws 0, 0) with
        heq | ⟨_, hmem⟩
      · rw [heq]
        exact List.mem_cons_self 0 t
      · exact List.mem_cons_of_mem 0 hmem
    · intro j hj
      rw [hach]
      rcases List.mem_cons.mp hj with rfl | hj2
      · exact scanLoop_fst_le content qws t (windowScore content qws 0, 0)
      · exact scanLoop_ge_all content qws t _ j hj2
    · intro j hj hjlt
      rw [hach]
      rcases List.mem_cons.mp hj with rfl | hj2
      · rcases scanLoop_stay_or_grow content qws t (windowScore content qws 0, 0) with
          heq | ⟨hg, _⟩
        · rw [heq] at hjlt
          exact absurd hjlt (lt_irrefl 0)
        · exact hg
      · exact scanLoop_strict content qws t _ hsorted ht0 rfl j hj2 hjlt
  · rw [hred, if_neg hc]
    have h0 : windowScore content qws 0 = 0 := Nat.le_zero.mp (Nat.not_lt.mp hc)
    have hach : windowScore content qws (scanLoop content qws t (0, 0)).2 =
        (scanLoop content qws t (0, 0)).1 :=
      scanLoop_achieves content qws t _ h0
    refine ⟨?_, ?_, ?_⟩
    · rcases scanLoop_stay_or_grow content qws t (0, 0) with heq | ⟨_, hmem⟩
      · rw [heq]
        exact List.mem_cons_self 0 t
      · exact List.mem_cons_of_mem 0 hmem
    · intro j hj
      rw [hach]
      rcases List.mem_cons.mp hj with rfl | hj2
      · rw [h0]
        exact Nat.zero_le _
      · exact scanLoop_ge_all content qws t _ j hj2
    · intro j hj hjlt
      rw [hach]
      rcases List.mem_cons.mp hj with rfl | hj2
      · rcases scanLoop_stay_or_grow content qws t (0, 0) with heq | ⟨hg, _⟩
        · rw [heq] at hjlt
          exact absurd hjlt (lt_irrefl 0)
        · rw [h0]
          exact hg
      · exact scanLoop_strict content qws t _ hsorted ht0 h0 j hj2 hjlt

/-- Claim C6: ties during the scan keep the earliest position, because the
comparison is strictly greater; and a query with no token longer than two
characters always selects window position zero, making the snippet the
first 200 characters followed by the trailing marker with no leading one. -/
theorem claim_c6_first_found (content query : String) (h : 300 < content.length) :
    bestIndexOf content query ∈ positions content.length ∧
    (∀ j ∈ positions content.length,
      windowScore content (queryTokens query) j ≤
        windowScore content (queryTokens query) (bestIndexOf content query)) ∧
    (∀ j ∈ positions content.length, j < bestIndexOf content query →
      windowScore content (queryTokens query) j <
        windowScore content (queryTokens query) (bestIndexOf content query)) ∧
    (queryTokens query = [] →
      bestIndexOf content query = 0 ∧
      (extractSnippet content query).data = content.data.take 200 ++ dotsL) := by
  have hp := positions_cons content.length h
  have hsorted := positions_sorted content.length
  rw [hp] at hsorted
  rcases List.pairwise_cons.mp hsorted with ⟨ht0, hsorted2⟩
  have hmain := scan_main content (queryTokens query)
    ((List.range ((content.length - 100 + 49) / 50 - 1)).map (fun k => 50 * (k + 1)))
    hsorted2 ht0
  have hbi : bestIndexOf content query =
      (scanLoop content (queryTokens query)
        (0 :: (List.range ((content.length - 100 + 49) / 50 - 1)).map
          (fun k => 50 * (k + 1))) (0, 0)).2 := by
    unfold bestIndexOf
    rw [hp]
  refine ⟨?_, ?_, ?_, ?_⟩
  · rw [hbi, hp]
    exact hmain.1
  · intro j hj
    rw [hbi]
    exact hmain.2.1 j (by rwa [hp] at hj)
  · intro j hj hjlt
    rw [hbi]
    rw [hbi] at hjlt
    exact hmain.2.2 j (by rwa [hp] at hj) hjlt
  · intro hq
    have hb0 : bestIndexOf content query = 0 := by
      unfold bestIndexOf
      rw [hq, scanLoop_empty_tokens]
    refine ⟨hb0, ?_⟩
    rw [extract_eq_struct content query h, hb0]
    rw [if_neg (fun hcon => hcon rfl), if_pos (by omega : 0 + 200 < content.length)]
    have hcore : (snippetCore content query).data = content.data.take 200 := by
      show ((content.data.drop (bestIndexOf content query - 50)).take
        (bestIndexOf content query + 200 - (bestIndexOf content query - 50))) = _
      rw [hb0]
      simp
    rw [hcore]
    simp

/-- Witness for claim C6 at a concrete 301-character content and a query
with no token longer than two characters. -/
theorem claim_c6_witness :
    300 < (String.mk (List.replicate 301 'a')).length ∧
    queryTokens "ab" = [] ∧
    bestIndexOf (String.mk (List.replicate 301 'a')) "ab" = 0 ∧
    (extractSnippet (String.mk (List.replicate 301 'a')) "ab").data =
      (String.mk (List.replicate 301 'a')).data.take 200 ++ dotsL := by
  have hlen : 300 < (String.mk (List.replicate 301 'a')).length := by
    rw [string_length_eq, mk_data, List.length_replicate]
    omega
  have htok : queryTokens "ab" = [] := by decide
  have hmain := (claim_c6_first_found (String.mk (List.replicate 301 'a')) "ab" hlen).2.2.2 htok
  exact ⟨hlen, htok, hmain.1, hmain.2⟩

/-- Folding the conditional increment equals adding the predicate count. -/
theorem foldl_count_aux (p : String → Bool) (l : List String) :
    ∀ n : Nat, l.foldl (fun count w => count + (if p w then 1 else 0)) n =
      n + l.countP p := by
  induction l with
  | nil => intro n; simp
  | cons w rest ih =>
      intro n
      rw [List.foldl_cons, ih, List.countP_cons]
      by_cases hp : p w <;> simp [hp] <;> omega

set_option maxRecDepth 100000 in
/-- Claim C4 fails on the code: with the repeated-token query the window
score counts each repetition, so it differs from the number of distinct
matching tokens; shown at a concrete 301-character content whose first
window contains the token. -/
theorem claim_c4_counterexample :
    300 < (String.mk ('c' :: 'a' :: 't' :: List.replicate 298 'x')).length ∧
    windowScore (String.mk ('c' :: 'a' :: 't' :: List.replicate 298 'x'))
      (queryTokens "cat cat") 0 = 2 ∧
    distinctWindowScore (String.mk ('c' :: 'a' :: 't' :: List.replicate 298 'x'))
      (queryTokens "cat cat") 0 = 1 := by
  refine ⟨?_, ?_, ?_⟩
  · rw [string_length_eq, mk_data, List.length_cons, List.length_cons, List.length_cons,
      List.length_replicate]
    omega
  · decide
  · decide

/-- Claim C4 amended: the score assigned to each window equals the number
of entries of the token list, counted with multiplicity, that occur as
substrings of the lowercased window. -/
theorem claim_c4_amended (content query : String) (h : 300 < content.length) (i : Nat) :
    windowScore content (queryTokens query) i =
      (queryTokens query).countP
        (fun w => jsIncludes (lowerStr (jsSubstring content i (i + 200))) w) := by
  show (queryTokens query).foldl
      (fun count w =>
        count + (if jsIncludes (lowerStr (jsSubstring content i (i + 200))) w then 1 else 0))
      0 = _
  rw [foldl_count_aux]
  simp

/-- Witness for the amended claim C4 at a concrete content and window. -/
theorem claim_c4_witness :
    300 < (String.mk (List.replicate 301 'b')).length ∧
    windowScore (String.mk (List.replicate 301 'b')) (queryTokens "cat") 0 =
      (queryTokens "cat").countP
        (fun w => jsIncludes (lowerStr (jsSubstring (String.mk (List.replicate 301 'b')) 0 (0 + 200))) w) := by
  have hlen : 300 < (String.mk (List.replicate 301 'b')).length := by
    rw [string_length_eq, mk_data, List.length_replicate]
    omega
  exact ⟨hlen, claim_c4_amended (String.mk (List.replicate 301 'b')) "cat" hlen 0⟩

set_option maxRecDepth 400000 in
/-- Claim C5 fails on the code: at this content the winning window starts
at position 50, so the clamped snippet start max(0, 50 - 50) is position
zero, yet the snippet does carry the leading ellipsis marker, because the
code tests the window start rather than the clamped start. -/
theorem claim_c5_counterexample :
    300 < (String.mk (List.replicate 205 'a' ++ 'z' :: 'z' :: 'z' :: List.replicate 93 'b')).length ∧
    ¬ ((jsStartsWith
          (extractSnippet
            (String.mk (List.replicate 205 'a' ++ 'z' :: 'z' :: 'z' :: List.replicate 93 'b'))
            "zzz") "..." = true) ↔
        bestIndexOf
          (String.mk (List.replicate 205 'a' ++ 'z' :: 'z' :: 'z' :: List.replicate 93 'b'))
          "zzz" - 50 ≠ 0) := by
  constructor
  · rw [string_length_eq, mk_data, List.length_append, List.length_replicate,
      List.length_cons, List.length_cons, List.length_cons, List.length_replicate]
    omega
  · decide

/-- Claim C5 amended: the leading marker appears exactly when the winning
window start itself is nonzero, and the trailing marker exactly when the
window end lies before the content end. -/
theorem claim_c5_amended (content query : String) (h : 300 < content.length) :
    (extractSnippet content query).data =
      (if bestIndexOf content query ≠ 0 then dotsL else []) ++
      (snippetCore content query).data ++
      (if bestIndexOf content query + 200 < content.length then dotsL else []) :=
  extract_eq_struct content query h

/-- Witness for the amended claim C5 at a concrete 301-character content. -/
theorem claim_c5_witness :
    300 < (String.mk (List.replicate 301 'c')).length ∧
    (extractSnippet (String.mk (List.replicate 301 'c')) "zzz").data =
      (if bestIndexOf (String.mk (List.replicate 301 'c')) "zzz" ≠ 0 then dotsL else []) ++
      (snippetCore (String.mk (List.replicate 301 'c')) "zzz").data ++
      (if bestIndexOf (String.mk (List.replicate 301 'c')) "zzz" + 200 <
          (String.mk (List.replicate 301 'c')).length then dotsL else []) := by
  have hlen : 300 < (String.mk (List.replicate 301 'c')).length := by
    rw [string_length_eq, mk_data, List.length_replicate]
    omega
  exact ⟨hlen, claim_c5_amended (String.mk (List.replicate 301 'c')) "zzz" hlen⟩

/-- The comparator returns a negative value exactly on the strict
lexicographic order over the pair of rank and string length. -/
theorem cmpSug_lt_iff (lq a b : String) :
    cmpSug lq a b < 0 ↔
      (rankOf lq a < rankOf lq b ∨
       (rankOf lq a = rankOf lq b ∧ a.length < b.length)) := by
  by_cases ha : jsStartsWith (lowerStr a) lq <;>
    by_cases hb : jsStartsWith (lowerStr b) lq <;>
      simp [cmpSug, rankOf, ha, hb] <;> omega

/-- Membership in the sort key shape, expressed through rank and length. -/
theorem keyIs_true_iff (lq : String) (rk n : Nat) (s : String) :
    keyIs lq rk n s = true ↔ (rankOf lq s = rk ∧ s.length = n) := by
  simp [keyIs]

/-- An element of the insertion result is the inserted element or an
element of the original list. -/
theorem insertSug_mem (lq a : String) (l : List String) (x : String)
    (hx : x ∈ insertSug lq a l) : x = a ∨ x ∈ l := by
  induction l with
  | nil => simpa [insertSug] using hx
  | cons b t ih =>
      have hred : insertSug lq a (b :: t) =
          (if cmpSug lq a b < 0 then a :: b :: t else b :: insertSug lq a t) := rfl
      rw [hred] at hx
      by_cases hc : cmpSug lq a b < 0
      · rw [if_pos hc] at hx
        rcases List.mem_cons.mp hx with rfl | h2
        · exact Or.inl rfl
        · exact Or.inr h2
      · rw [if_neg hc] at hx
        rcases List.mem_cons.mp hx with rfl | h2
        · exact Or.inr (List.mem_cons_self _ _)
        · rcases ih h2 with h3 | h3
          · exact Or.inl h3
          · exact Or.inr (List.mem_cons_of_mem _ h3)

/-- Insertion preserves the sortedness invariant of the comparator order. -/
theorem insertSug_pairwise (lq a : String) (l : List String)
    (hl : l.Pairwise (fun x y => ¬ cmpSug lq y x < 0)) :
    (insertSug lq a l).Pairwise (fun x y => ¬ cmpSug lq y x < 0) := by
  induction l with
  | nil => simp [insertSug]
  | cons b t ih =>
      rcases List.pairwise_cons.mp hl with ⟨hb, ht⟩
      have hred : insertSug lq a (b :: t) =
          (if cmpSug lq a b < 0 then a :: b :: t else b :: insertSug lq a t) := rfl
      rw [hred]
      by_cases hc : cmpSug lq a b < 0
      · rw [if_pos hc]
        refine List.pairwise_cons.mpr ⟨?_, hl⟩
        intro y hy
        rcases List.mem_cons.mp hy with rfl | h2
        · rw [cmpSug_lt_iff] at hc ⊢
          omega
        · have h3 := hb y h2
          rw [cmpSug_lt_iff] at hc h3 ⊢
          omega
      · rw [if_neg hc]
        refine List.pairwise_cons.mpr ⟨?_, ih ht⟩
        intro y hy
        rcases insertSug_mem lq a t y hy with rfl | h2
        · exact hc
        · exact hb y h2

/-- Inserting an element whose key differs leaves the key filter unchanged. -/
theorem filter_insertSug_of_ne (lq a : String) (rk n : Nat) (l : List String)
    (ha : keyIs lq rk n a = false) :
    (insertSug lq a l).filter (keyIs lq rk n) = l.filter (keyIs lq rk n) := by
  induction l with
  | nil => simp [insertSug, ha]
  | cons b t ih =>
      have hred : insertSug lq a (b :: t) =
          (if cmpSug lq a b < 0 then a :: b :: t else b :: insertSug lq a t) := rfl
      rw [hred]
      by_cases hc : cmpSug lq a b < 0
      · rw [if_pos hc]
        simp [List.filter_cons, ha]
      · rw [if_neg hc]
        simp [List.filter_cons, ih]

/-- Inserting an element with the given key into a sorted list appends it
after every element of that key: the stability of the insertion sort. -/
theorem filter_insertSug_of_eq (lq a : String) (rk n : Nat) (l : List String)
    (ha : keyIs lq rk n a = true)
    (hl : l.Pairwise (fun x y => ¬ cmpSug lq y x < 0)) :
    (insertSug lq a l).filter (keyIs lq rk n) = l.filter (keyIs lq rk n) ++ [a] := by
  induction l with
  | nil => simp [insertSug, ha]
  | cons b t ih =>
      rcases List.pairwise_cons.mp hl with ⟨hb, ht⟩
      have hred : insertSug lq a (b :: t) =
          (if cmpSug lq a b < 0 then a :: b :: t else b :: insertSug lq a t) := rfl
      rw [hred]
      by_cases hc : cmpSug lq a b < 0
      · rw [if_pos hc]
        have hbt : ∀ x ∈ b :: t, keyIs lq rk n x = false := by
          intro x hx
          have hak := (keyIs_true_iff lq rk n a).mp ha
          have hab := (cmpSug_lt_iff lq a b).mp hc
          rw [← Bool.not_eq_true, keyIs_true_iff]
          rcases List.mem_cons.mp hx with rfl | hx2
          · omega
          · have hxb := hb x hx2
            rw [cmpSug_lt_iff] at hxb
            omega
        have hnil : (b :: t).filter (keyIs lq rk n) = [] := by
          rw [List.filter_eq_nil_iff]
          intro x hx
          rw [hbt x hx]
          simp
        simp [List.filter_cons, ha, hnil]
      · rw [if_neg hc]
        by_cases hbk : keyIs lq rk n b = true <;> simp [List.filter_cons, ih ht, hbk]

/-- Invariant of the insertion fold: the result stays sorted and the key
filter of the result is the key filter of the accumulator followed by the
key filter of the processed input, in input order. -/
theorem sortSugs_aux_spec (lq : String) (rk n : Nat) (l : List String) :
    ∀ acc : List String, acc.Pairwise (fun x y => ¬ cmpSug lq y x < 0) →
      ((l.foldl (fun acc a => insertSug lq a acc) acc).Pairwise
        (fun x y => ¬ cmpSug lq y x < 0)) ∧
      (l.foldl (fun acc a => insertSug lq a acc) acc).filter (keyIs lq rk n) =
        acc.filter (keyIs lq rk n) ++ l.filter (keyIs lq rk n) := by
  induction l with
  | nil => intro acc hacc; exact ⟨hacc, by simp⟩
  | cons a t ih =>
      intro acc hacc
      rw [List.foldl_cons]
      have hins := insertSug_pairwise lq a acc hacc
      rcases ih (insertSug lq a acc) hins with ⟨hp, hf⟩
      refine ⟨hp, ?_⟩
      rw [hf]
      by_cases ha : keyIs lq rk n a = true
      · rw [filter_insertSug_of_eq lq a rk n acc ha hacc]
        simp [List.filter_cons, ha]
      · rw [filter_insertSug_of_ne lq a rk n acc (by simpa using ha)]
        simp [List.filter_cons, ha]

/-- The sorted suggestion list is sorted under the comparator order. -/
theorem sortSugs_pairwise (lq : String) (l : List String) :
    (sortSugs lq l).Pairwise (fun x y => ¬ cmpSug lq y x < 0) :=
  (sortSugs_aux_spec lq 0 0 l [] List.Pairwise.nil).1

/-- The sort preserves each key class in input order: full stability. -/
theorem sortSugs_filter (lq : String) (rk n : Nat) (l : List String) :
    (sortSugs lq l).filter (keyIs lq rk n) = l.filter (keyIs lq rk n) := by
  have h := (sortSugs_aux_spec lq rk n l [] List.Pairwise.nil).2
  simpa using h

/-- The sortedness invariant implies the rank-then-length order of the
claim. -/
theorem srel_imp (lq a b : String) (h : ¬ cmpSug lq b a < 0) :
    rankOf lq a < rankOf lq b ∨
      (rankOf lq a = rankOf lq b ∧ a.length ≤ b.length) := by
  rw [cmpSug_lt_iff] at h
  omega

/-- Reduction of the generator on a cache hit. -/
theorem gen_hit (query : String) (limit : Nat) (cache : Cache) (v : List String)
    (h : cacheFind (normQuery query) cache = some v) :
    generateUltraFastSuggestions query limit cache = (v.take limit, cache) := by
  unfold generateUltraFastSuggestions
  rw [h]

/-- Reduction of the generator on a cache miss. -/
theorem gen_miss (query : String) (limit : Nat) (cache : Cache)
    (h : cacheFind (normQuery query) cache = none) :
    generateUltraFastSuggestions query limit cache =
      ((uniqueSuggestionsFor query).take limit,
       evictStep (cache ++ [(normQuery query, uniqueSuggestionsFor query)])) := by
  unfold generateUltraFastSuggestions
  rw [h]

/-- Claim C7: on a cache miss the returned list puts every candidate whose
lowercase form starts with the normalized query before every candidate
whose lowercase form does not, orders each partition by nondecreasing
string length, and preserves the pre-sort order among candidates of equal
partition and length: the key classes of the returned list are initial
runs of the key classes of the deduplicated filtered pool. -/
theorem claim_c7_sorted (query : String) (limit : Nat) (cache : Cache)
    (hmiss : cacheFind (normQuery query) cache = none) :
    ((generateUltraFastSuggestions query limit cache).1.Pairwise (fun a b =>
      rankOf (normQuery query) a < rankOf (normQuery query) b ∨
      (rankOf (normQuery query) a = rankOf (normQuery query) b ∧
        a.length ≤ b.length))) ∧
    (∀ rk n : Nat, ∃ t,
      (preSortList query).filter (keyIs (normQuery query) rk n) =
        (generateUltraFastSuggestions query limit cache).1.filter
          (keyIs (normQuery query) rk n) ++ t) := by
  rw [gen_miss query limit cache hmiss]
  constructor
  · have hpw := sortSugs_pairwise (normQuery query) (preSortList query)
    have hpw2 := List.Pairwise.imp
      (fun hab => srel_imp (normQuery query) _ _ hab) hpw
    exact List.Pairwise.sublist (List.take_sublist _ _) hpw2
  · intro rk n
    refine ⟨((uniqueSuggestionsFor query).drop limit).filter
      (keyIs (normQuery query) rk n), ?_⟩
    rw [← sortSugs_filter (normQuery query) rk n (preSortList query)]
    show (uniqueSuggestionsFor query).filter (keyIs (normQuery query) rk n) = _
    conv_lhs => rw [← List.take_append_drop limit (uniqueSuggestionsFor query)]
    rw [List.filter_append]

/-- Witness for claim C7 at a concrete query, limit and empty cache. -/
theorem claim_c7_witness :
    cacheFind (normQuery "python") [] = none ∧
    ((generateUltraFastSuggestions "python" 5 []).1.Pairwise (fun a b =>
      rankOf (normQuery "python") a < rankOf (normQuery "python") b ∨
      (rankOf (normQuery "python") a = rankOf (normQuery "python") b ∧
        a.length ≤ b.length))) :=
  ⟨rfl, (claim_c7_sorted "python" 5 [] rfl).1⟩

/-- Appending a fresh entry with the sought key makes lookup find it. -/
theorem cacheFind_append_some (k : String) (v : List String) (c : Cache)
    (h : cacheFind k c = none) :
    cacheFind k (c ++ [(k, v)]) = some v := by
  induction c with
  | nil => simp [cacheFind]
  | cons e t ih =>
      have hh : cacheFind k (e :: t) =
          (if e.1 == k then some e.2 else cacheFind k t) := rfl
      rw [hh] at h
      have hh2 : cacheFind k ((e :: t) ++ [(k, v)]) =
          (if e.1 == k then some e.2 else cacheFind k (t ++ [(k, v)])) := rfl
      rw [hh2]
      by_cases he : e.1 == k
      · rw [if_pos he] at h
        simp at h
      · rw [if_neg he] at h
        rw [if_neg he]
        exact ih h

/-- Appending an entry with a different key keeps a failing lookup failing. -/
theorem cacheFind_append_ne (k k2 : String) (v : List String) (c : Cache)
    (h : cacheFind k c = none) (hne : (k2 == k) = false) :
    cacheFind k (c ++ [(k2, v)]) = none := by
  induction c with
  | nil => simp [cacheFind, hne]
  | cons e t ih =>
      have hh : cacheFind k (e :: t) =
          (if e.1 == k then some e.2 else cacheFind k t) := rfl
      rw [hh] at h
      have hh2 : cacheFind k ((e :: t) ++ [(k2, v)]) =
          (if e.1 == k then some e.2 else cacheFind k (t ++ [(k2, v)])) := rfl
      rw [hh2]
      by_cases he : e.1 == k
      · rw [if_pos he] at h
        simp at h
      · rw [if_neg he] at h
        rw [if_neg he]
        exact ih h

/-- The size-limiting step never deletes anything when the oldest key is
the empty string, because the empty string is falsy in the guard. -/
theorem evictStep_empty_head (v : List String) (c : Cache) :
    evictStep (("", v) :: c) = ("", v) :: c := by
  unfold evictStep
  by_cases hl : (("", v) :: c).length > 1000
  · rw [if_pos hl]
    show (if (("" : String) == "") = true then ("", v) :: c else c) = ("", v) :: c
    rw [if_pos (by rfl)]
  · rw [if_neg hl]

/-- After a miss inserts an entry, looking its key up succeeds, whether or
not the size-limiting step deleted the oldest entry. -/
theorem cacheFind_after_insert (nq : String) (u : List String) (s : Cache)
    (h : cacheFind nq s = none) :
    cacheFind nq (evictStep (s ++ [(nq, u)])) = some u := by
  unfold evictStep
  by_cases hl : (s ++ [(nq, u)]).length > 1000
  · rw [if_pos hl]
    cases s with
    | nil => simp at hl
    | cons e s2 =>
        show cacheFind nq
          (if (e.1 == "") = true then e :: (s2 ++ [(nq, u)]) else s2 ++ [(nq, u)]) = some u
        have hh : cacheFind nq (e :: s2) =
            (if e.1 == nq then some e.2 else cacheFind nq s2) := rfl
        rw [hh] at h
        by_cases he : e.1 == nq
        · rw [if_pos he] at h
          simp at h
        · rw [if_neg he] at h
          by_cases hemp : (e.1 == "") = true
          · rw [if_pos hemp]
            have hh2 : cacheFind nq (e :: (s2 ++ [(nq, u)])) =
                (if e.1 == nq then some e.2 else cacheFind nq (s2 ++ [(nq, u)])) := rfl
            rw [hh2, if_neg he]
            exact cacheFind_append_some nq u s2 h
          · rw [if_neg hemp]
            exact cacheFind_append_some nq u s2 h
  · rw [if_neg hl]
    exact cacheFind_append_some nq u s h

/-- Claim C8: two successive calls with the same query and limit return the
same list, the second being answered from the entry the first stored; and
on any two cache states that both miss, the recomputation is deterministic
and returns the same list. -/
theorem claim_c8_idempotent (query : String) (limit : Nat) (s s2 : Cache) :
    (generateUltraFastSuggestions query limit
        (generateUltraFastSuggestions query limit s).2).1 =
      (generateUltraFastSuggestions query limit s).1 ∧
    (cacheFind (normQuery query) s = none → cacheFind (normQuery query) s2 = none →
      (generateUltraFastSuggestions query limit s2).1 =
        (generateUltraFastSuggestions query limit s).1) := by
  constructor
  · cases hf : cacheFind (normQuery query) s with
    | some v =>
        have h1 := gen_hit query limit s v hf
        have hs2 : (generateUltraFastSuggestions query limit s).2 = s := by rw [h1]
        rw [hs2]
    | none =>
        have h1 := gen_miss query limit s hf
        have hs2 : (generateUltraFastSuggestions query limit s).2 =
            evictStep (s ++ [(normQuery query, uniqueSuggestionsFor query)]) := by
          rw [h1]
        have hf2 : cacheFind (normQuery query)
            (evictStep (s ++ [(normQuery query, uniqueSuggestionsFor query)])) =
            some (uniqueSuggestionsFor query) :=
          cacheFind_after_insert (normQuery query) (uniqueSuggestionsFor query) s hf
        rw [hs2, gen_hit query limit _ _ hf2, h1]
  · intro h1 h2
    rw [gen_miss query limit s2 h2, gen_miss query limit s h1]

/-- Witness for claim C8 at a concrete query and two concrete caches. -/
theorem claim_c8_witness :
    (generateUltraFastSuggestions "python" 3
        (generateUltraFastSuggestions "python" 3 []).2).1 =
      (generateUltraFastSuggestions "python" 3 []).1 ∧
    (generateUltraFastSuggestions "python" 3 [("w", [])]).1 =
      (generateUltraFastSuggestions "python" 3 []).1 :=
  ⟨(claim_c8_idempotent "python" 3 [] [("w", [])]).1,
   (claim_c8_idempotent "python" 3 [] [("w", [])]).2 rfl (by decide)⟩

/-- Claim C9: both core functions are total over the embedding: for every
query, content, limit and cache state the generator returns a list of at
most limit entries and the extractor returns a snippet of at most 306
characters; no input, including empty and whitespace-only strings, is
excluded. -/
theorem claim_c9_total (query content : String) (limit : Nat) (cache : Cache) :
    (generateUltraFastSuggestions query limit cache).1.length ≤ limit ∧
    (extractSnippet content query).length ≤ 306 := by
  refine ⟨?_, extract_length_le content query⟩
  cases hf : cacheFind (normQuery query) cache with
  | some v =>
      rw [gen_hit query limit cache v hf]
      rw [List.length_take]
      exact min_le_left _ _
  | none =>
      rw [gen_miss query limit cache hf]
      rw [List.length_take]
      exact min_le_left _ _

/-- A list starts with itself. -/
theorem startsWithL_refl (l : List Char) : startsWithL l l = true := by
  induction l with
  | nil => rfl
  | cons c t ih =>
      show (c == c && startsWithL t t) = true
      rw [ih]
      simp

/-- Membership in a member list gives membership in the concatenation. -/
theorem mem_concatAll {α : Type} (x : α) (l : List α) (ls : List (List α))
    (hl : l ∈ ls) (hx : x ∈ l) : x ∈ concatAll ls := by
  induction ls with
  | nil => cases hl
  | cons hd tl ih =>
      show x ∈ hd ++ concatAll tl
      rcases List.mem_cons.mp hl with rfl | h2
      · exact List.mem_append_left _ hx
      · exact List.mem_append_right _ (ih h2)

/-- When the normalized query equals the question starter, the starter
contributes exactly the three closing completions. -/
theorem qpItem_self (query p : String) (hq : normQuery query = p) :
    qpItem (normQuery query) query p = [p ++ " this", p ++ " that", p ++ " it"] := by
  have hrem : jsTrim (jsSubstringFrom p p.length) = "" := by
    unfold jsSubstringFrom
    rw [string_length_eq, List.drop_length]
    rfl
  rw [hq]
  show (if jsStartsWith p p then
      (if (jsTrim (jsSubstringFrom p p.length)).length == 0 then
        [p ++ " this", p ++ " that", p ++ " it"]
      else [p ++ " " ++ jsTrim (jsSubstringFrom p p.length) ++ " explained",
            p ++ " " ++ jsTrim (jsSubstringFrom p p.length) ++ " examples",
            p ++ " " ++ jsTrim (jsSubstringFrom p p.length) ++ " benefits",
            p ++ " " ++ jsTrim (jsSubstringFrom p p.length) ++ " work",
            p ++ " " ++ jsTrim (jsSubstringFrom p p.length) ++ " help"])
    else if jsIncludes p p then [] else [p ++ " " ++ query]) =
    [p ++ " this", p ++ " that", p ++ " it"]
  rw [if_pos (show jsStartsWith p p = true from startsWithL_refl p.data), hrem]
  rfl

/-- Claim C10: for every query whose normalized form exactly equals a fixed
question starter, the candidate pool includes the three completions of the
starter with this, that and it. -/
theorem claim_c10_pattern_edge (query p : String) (hp : p ∈ questionPatterns)
    (hq : normQuery query = p) :
    (p ++ " this") ∈ buildCandidates query ∧
    (p ++ " that") ∈ buildCandidates query ∧
    (p ++ " it") ∈ buildCandidates query := by
  have hmem : ∀ x ∈ [p ++ " this", p ++ " that", p ++ " it"],
      x ∈ buildCandidates query := by
    intro x hx
    have hin : x ∈ concatAll (questionPatterns.map (qpItem (normQuery query) query)) := by
      refine mem_concatAll x (qpItem (normQuery query) query p) _ ?_ ?_
      · exact List.mem_map_of_mem _ hp
      · rw [qpItem_self query p hq]
        exact hx
    show x ∈ sec1 (wordsOf query) ++
      concatAll (questionPatterns.map (qpItem (normQuery query) query)) ++
      concatAll (modifiers.map (modItem (normQuery query) query)) ++
      concatAll (actions.map (modItem (normQuery query) query)) ++
      ctxSection (normQuery query) ++
      tailSection (normQuery query) query (wordsOf query)
    exact List.mem_append_left _ (List.mem_append_left _ (List.mem_append_left _
      (List.mem_append_left _ (List.mem_append_right _ hin))))
  exact ⟨hmem _ (by simp), hmem _ (by simp), hmem _ (by simp)⟩

/-- Witness for claim C10 at the concrete query equal to a starter. -/
theorem claim_c10_witness :
    "what is" ∈ questionPatterns ∧
    normQuery "what is" = "what is" ∧
    ("what is" ++ " this") ∈ buildCandidates "what is" := by
  refine ⟨by decide, by decide, ?_⟩
  exact (claim_c10_pattern_edge "what is" "what is" (by decide) (by decide)).1

/-- Dropping whitespace from a run of the letter q drops nothing. -/
theorem dropWhile_isWs_replicate_q (n : Nat) :
    (List.replicate n 'q').dropWhile isWs = List.replicate n 'q' := by
  cases n with
  | zero => rfl
  | succ m =>
      rw [List.replicate_succ, List.dropWhile_cons]
      rw [show isWs 'q' = false by decide]
      simp [List.replicate_succ]

/-- Normalizing a nonempty run of the letter q is the identity. -/
theorem normQuery_replicate_q (n : Nat) :
    normQuery (String.mk (List.replicate n 'q')) = String.mk (List.replicate n 'q') := by
  have h1 : lowerStr (String.mk (List.replicate n 'q')) =
      String.mk (List.replicate n 'q') := by
    unfold lowerStr
    rw [mk_data, List.map_replicate, show Char.toLower 'q' = 'q' by decide]
  have h2 : jsTrim (String.mk (List.replicate n 'q')) =
      String.mk (List.replicate n 'q') := by
    unfold jsTrim
    rw [mk_data, dropWhile_isWs_replicate_q, List.reverse_replicate,
      dropWhile_isWs_replicate_q, List.reverse_replicate]
  unfold normQuery
  rw [h1, h2]

/-- The empty string differs from every nonempty run of the letter q. -/
theorem empty_ne_replicate_q (n : Nat) :
    ("" : String) ≠ String.mk (List.replicate (n + 1) 'q') := by
  intro hcon
  have hd := congrArg String.data hcon
  rw [mk_data, List.replicate_succ] at hd
  simp at hd

/-- Unfolding a run of calls on its first call. -/
theorem runCalls_cons_split (q : String) (lim : Nat) (qs : List (String × Nat)) :
    runCalls ((q, lim) :: qs) =
      runFrom ((generateUltraFastSuggestions q lim []).2) qs := rfl

/-- While the oldest cache key is the empty string, a run of calls with
pairwise distinct fresh normalized queries grows the cache by one entry
per call: the eviction guard never fires. -/
theorem runFrom_grows (qs : List (String × Nat)) :
    ∀ (v : List String) (t : Cache),
      (∀ x ∈ qs, cacheFind (normQuery x.1) (("", v) :: t) = none) →
      qs.Pairwise (fun a b => normQuery a.1 ≠ normQuery b.1) →
      (runFrom (("", v) :: t) qs).length = t.length + 1 + qs.length := by
  induction qs with
  | nil =>
      intro v t _ _
      show (("", v) :: t).length = t.length + 1 + 0
      simp
  | cons x rest ih =>
      intro v t hfresh hpair
      rcases List.pairwise_cons.mp hpair with ⟨hx, hrest⟩
      have hmiss : cacheFind (normQuery x.1) (("", v) :: t) = none :=
        hfresh x (List.mem_cons_self _ _)
      have hstep : runFrom (("", v) :: t) (x :: rest) =
          runFrom (("", v) :: (t ++ [(normQuery x.1, uniqueSuggestionsFor x.1)])) rest := by
        show runFrom ((generateUltraFastSuggestions x.1 x.2 (("", v) :: t)).2) rest = _
        rw [gen_miss x.1 x.2 _ hmiss]
        show runFrom (evictStep (("", v) ::
          (t ++ [(normQuery x.1, uniqueSuggestionsFor x.1)]))) rest = _
        rw [evictStep_empty_head]
      rw [hstep]
      have hfresh2 : ∀ y ∈ rest, cacheFind (normQuery y.1)
          (("", v) :: (t ++ [(normQuery x.1, uniqueSuggestionsFor x.1)])) = none := by
        intro y hy
        have hyf := hfresh y (List.mem_cons_of_mem _ hy)
        have hh : cacheFind (normQuery y.1) (("", v) :: t) =
            (if ("" : String) == normQuery y.1 then some v
             else cacheFind (normQuery y.1) t) := rfl
        rw [hh] at hyf
        have hh2 : cacheFind (normQuery y.1)
            (("", v) :: (t ++ [(normQuery x.1, uniqueSuggestionsFor x.1)])) =
            (if ("" : String) == normQuery y.1 then some v
             else cacheFind (normQuery y.1)
               (t ++ [(normQuery x.1, uniqueSuggestionsFor x.1)])) := rfl
        rw [hh2]
        by_cases hb : ("" : String) == normQuery y.1
        · rw [if_pos hb] at hyf
          simp at hyf
        · rw [if_neg hb] at hyf
          rw [if_neg hb]
          exact cacheFind_append_ne (normQuery y.1) (normQuery x.1) _ t hyf
            (by rw [beq_eq_false_iff_ne]; exact hx y hy)
      rw [ih v (t ++ [(normQuery x.1, uniqueSuggestionsFor x.1)]) hfresh2 hrest]
      simp [List.length_append]
      omega

set_option maxRecDepth 1000000 in
/-- Claim C1 fails on the code: after a call whose normalized query is the
empty string, the falsy-key guard keeps the eviction from ever firing, so
a following run of 1001 distinct queries leaves 1002 entries in the cache,
beyond the documented bound of 1000. -/
theorem claim_c1_cache_bug :
    (runCalls ((" ", 10) :: (List.range 1001).map
      (fun i => (String.mk (List.replicate (i + 1) 'q'), 10)))).length = 1002 ∧
    1000 < (runCalls ((" ", 10) :: (List.range 1001).map
      (fun i => (String.mk (List.replicate (i + 1) 'q'), 10)))).length := by
  have hfirst : (generateUltraFastSuggestions " " 10 []).2 =
      ("", uniqueSuggestionsFor " ") :: [] := by
    rw [gen_miss " " 10 [] rfl]
    show evictStep ([] ++ [(normQuery " ", uniqueSuggestionsFor " ")]) =
      ("", uniqueSuggestionsFor " ") :: []
    rw [show normQuery " " = "" by decide]
    exact evictStep_empty_head (uniqueSuggestionsFor " ") []
  have hfresh : ∀ x ∈ (List.range 1001).map
      (fun i => (String.mk (List.replicate (i + 1) 'q'), 10)),
      cacheFind (normQuery x.1) (("", uniqueSuggestionsFor " ") :: []) = none := by
    intro x hx
    rcases List.mem_map.mp hx with ⟨i, _, rfl⟩
    have hn := normQuery_replicate_q (i + 1)
    have hne : ¬ (("" : String) == String.mk (List.replicate (i + 1) 'q')) = true := by
      rw [beq_iff_eq]
      exact empty_ne_replicate_q i
    have hh : cacheFind (normQuery (String.mk (List.replicate (i + 1) 'q')))
        (("", uniqueSuggestionsFor " ") :: []) =
        (if ("" : String) == normQuery (String.mk (List.replicate (i + 1) 'q'))
         then some (uniqueSuggestionsFor " ")
         else cacheFind (normQuery (String.mk (List.replicate (i + 1) 'q'))) []) := rfl
    rw [hh, hn, if_neg hne]
    rfl
  have hpair : ((List.range 1001).map
      (fun i => (String.mk (List.replicate (i + 1) 'q'), 10))).Pairwise
      (fun a b => normQuery a.1 ≠ normQuery b.1) := by
    rw [List.pairwise_map]
    refine List.Pairwise.imp ?_ (List.pairwise_lt_range 1001)
    intro i j hij hcon
    have hcon2 : String.mk (List.replicate (i + 1) 'q') =
        String.mk (List.replicate (j + 1) 'q') := by
      calc String.mk (List.replicate (i + 1) 'q')
          = normQuery (String.mk (List.replicate (i + 1) 'q')) :=
            (normQuery_replicate_q (i + 1)).symm
        _ = normQuery (String.mk (List.replicate (j + 1) 'q')) := hcon
        _ = String.mk (List.replicate (j + 1) 'q') := normQuery_replicate_q (j + 1)
    have hd := congrArg String.data hcon2
    rw [mk_data, mk_data] at hd
    have hlen := congrArg List.length hd
    rw [List.length_replicate, List.length_replicate] at hlen
    omega
  have hmain := runFrom_grows ((List.range 1001).map
    (fun i => (String.mk (List.replicate (i + 1) 'q'), 10)))
    (uniqueSuggestionsFor " ") [] hfresh hpair
  have h1002 : (runCalls ((" ", 10) :: (List.range 1001).map
      (fun i => (String.mk (List.replicate (i + 1) 'q'), 10)))).length = 1002 := by
    rw [runCalls_cons_split " " 10, hfirst, hmain, List.length_map, List.length_range]
    simp
  exact ⟨h1002, by rw [h1002]; omega⟩

end Mawrid
